import Mathlib

/-!
Verification development for the design-to-code analysis scripts
(`scripts/detect_stack.py`, `scripts/inspect_html.py`).

The Python code is shallowly embedded:
* real-valued scores and confidences are modelled as rationals (all
  weights in the source are decimal literals);
* the filesystem is modelled by the list of paths that exist under the
  project root (`Project.files`) plus the dependency-name set
  (`Project.deps`) and the gathered source-suffix statistics;
* Python's `round(x, 2)` is modelled as rounding to the nearest multiple
  of 1/100 (`round2`);
* `sorted(scores.items(), key=lambda x: x[1], reverse=True)` is a stable
  descending sort, so its first element is the first-declared label of
  maximal score and its second element realises the maximum of the
  multiset with that first maximal element removed; `pickTop` and
  `runnerUp` implement exactly these two observations.
-/

/-- Source-file statistics gathered by `gather_source_stats`
(`detect_stack.py`, lines 41-96). -/
structure SourceStats where
  ts : Nat
  tsx : Nat
  js : Nat
  jsx : Nat
  vue : Nat
  svelte : Nat
  scss : Nat
  less : Nat
  css : Nat
  module_css : Nat
  module_scss : Nat
  module_less : Nat
deriving DecidableEq, Repr

def zeroStats : SourceStats := ⟨0, 0, 0, 0, 0, 0, 0, 0, 0, 0, 0, 0⟩

/-- The inputs that `detect_stack.py` reads: the merged dependency-name
set from `package.json`, the set of paths (relative to the project root)
that exist on disk, and the gathered source statistics. -/
structure Project where
  deps : List String
  files : List String
  stats : SourceStats

/-!
Python string operations that Lean's `String` API implements with
byte-position loops are re-implemented here on `String.data` (the
character list), so that concrete runs can be evaluated inside proofs:
`lowerStr` is `str.lower()`, `trimStr` is `str.strip()` (ASCII
whitespace), `hasSubList` is the `in` substring test, and
`List.isPrefixOf`/`List.isSuffixOf` on `.data` are
`str.startswith`/`str.endswith`.
-/

/-- `str.lower()`. -/
def lowerStr (s : String) : String := String.mk (s.data.map Char.toLower)

/-- `str.strip()` (the inputs here contain only ASCII whitespace). -/
def trimStr (s : String) : String :=
  String.mk (((s.data.dropWhile Char.isWhitespace).reverse.dropWhile
    Char.isWhitespace).reverse)

/-- Substring occurrence test (`pat in s`). -/
def hasSubList (pat : List Char) : List Char → Bool
  | [] => pat.isEmpty
  | c :: cs => List.isPrefixOf pat (c :: cs) || hasSubList pat cs

def containsSub (s pat : String) : Bool := hasSubList pat.data s.data

/-- One scoring rule of the weighted classifier: a predicate over the
project, the label it rewards, the weight and the evidence reason
(`detect_stack.py`, the `if ...: add(name, points, reason)` lines). -/
structure Rule (ι : Type) where
  pred : ι → Bool
  label : String
  pts : ℚ
  reason : ι → String

/-- `scores[name] += points` on the insertion-ordered score dict. -/
def addScore : List (String × ℚ) → String → ℚ → List (String × ℚ)
  | [], _, _ => []
  | x :: rest, n, p =>
    if x.1 = n then (x.1, x.2 + p) :: rest else x :: addScore rest n p

/-- `evidence[name].append(reason)` on the evidence dict. -/
def addReason : List (String × List String) → String → String → List (String × List String)
  | [], _, _ => []
  | x :: rest, n, r =>
    if x.1 = n then (x.1, x.2 ++ [r]) :: rest else x :: addReason rest n r

/-- Evaluate one rule: add its weight and reason when its predicate fires. -/
def applyRule (i : ι) (st : List (String × ℚ) × List (String × List String)) (r : Rule ι) :
    List (String × ℚ) × List (String × List String) :=
  if r.pred i then (addScore st.1 r.label r.pts, addReason st.2 r.label (r.reason i)) else st

/-- Evaluate all rules in declaration order. -/
def applyRules (rules : List (Rule ι)) (i : ι)
    (st : List (String × ℚ) × List (String × List String)) :
    List (String × ℚ) × List (String × List String) :=
  rules.foldl (applyRule i) st

/-- Dict lookup on the score list (keys are unique in all uses). -/
def scoreOf : List (String × ℚ) → String → ℚ
  | [], _ => 0
  | x :: rest, n => if x.1 = n then x.2 else scoreOf rest n

/-- Dict lookup on the evidence list. -/
def evidenceOf : List (String × List String) → String → List String
  | [], _ => []
  | x :: rest, n => if x.1 = n then x.2 else evidenceOf rest n

/-- First element of the stable descending sort
`sorted(scores.items(), key=lambda x: x[1], reverse=True)`: the
first-declared entry of maximal score (the fold replaces the current
best only on a strictly larger score, so ties keep the earlier entry). -/
def pickTop : List (String × ℚ) → String × ℚ
  | [] => ("", 0)
  | x :: xs => xs.foldl (fun b y => if b.2 < y.2 then y else b) x

/-- Remove the first entry carrying the given score. -/
def removeFirstScore : List (String × ℚ) → ℚ → List (String × ℚ)
  | [], _ => []
  | x :: rest, s => if x.2 = s then rest else x :: removeFirstScore rest s

/-- Maximum score in a list (0 on the empty list; all scores in this
development are non-negative, matching the `0.0` default the source uses
for a missing runner-up). -/
def restMax (l : List (String × ℚ)) : ℚ :=
  l.foldl (fun m y => max m y.2) 0

/-- Second element of the stable descending sort (`ordered[1][1]`): the
maximal score once the first-declared maximal entry is removed. -/
def runnerUp (l : List (String × ℚ)) (topScore : ℚ) : ℚ :=
  restMax (removeFirstScore l topScore)

/-- Python's `round(x, 2)`: round to the nearest multiple of 1/100. -/
def round2 (q : ℚ) : ℚ := ((round (100 * q) : ℤ) : ℚ) / 100

/-- The fixed framework enumeration (`detect_framework`, lines 100-108). -/
def fwInit : List (String × ℚ) :=
  [("next", 0), ("react", 0), ("nuxt", 0), ("vue", 0), ("taro", 0),
   ("svelte", 0), ("vanilla", 0.2)]

def fwLabels : List String :=
  ["next", "react", "nuxt", "vue", "taro", "svelte", "vanilla"]

def evidenceInit (keys : List String) : List (String × List String) :=
  keys.map (fun k => (k, []))

/-- The framework scoring rules, in the order the source evaluates them
(`detect_framework`, lines 117-153). -/
def fwRules : List (Rule Project) :=
  [ ⟨fun p => p.deps.contains "next", "next", 1.2, fun _ => "dependency: next"⟩,
    ⟨fun p => p.deps.contains "react", "react", 0.9, fun _ => "dependency: react"⟩,
    ⟨fun p => p.deps.contains "react-dom", "react", 0.3, fun _ => "dependency: react-dom"⟩,
    ⟨fun p => p.deps.contains "react-router" || p.deps.contains "react-router-dom",
      "react", 0.2, fun _ => "dependency: react-router"⟩,
    ⟨fun p => p.deps.contains "nuxt", "nuxt", 1.2, fun _ => "dependency: nuxt"⟩,
    ⟨fun p => p.deps.contains "vue", "vue", 0.9, fun _ => "dependency: vue"⟩,
    ⟨fun p => p.deps.contains "vue-router", "vue", 0.2, fun _ => "dependency: vue-router"⟩,
    ⟨fun p => p.deps.any (fun d => List.isPrefixOf "@tarojs/".data d.data), "taro", 1.3,
      fun _ => "dependency: @tarojs/*"⟩,
    ⟨fun p => p.deps.contains "svelte", "svelte", 1.0, fun _ => "dependency: svelte"⟩,
    ⟨fun p => p.deps.contains "@sveltejs/kit", "svelte", 0.5, fun _ => "dependency: @sveltejs/kit"⟩,
    ⟨fun p => p.files.contains "next.config.js" || p.files.contains "next.config.mjs",
      "next", 0.4, fun _ => "config: next.config.*"⟩,
    ⟨fun p => p.files.contains "nuxt.config.ts" || p.files.contains "nuxt.config.js",
      "nuxt", 0.4, fun _ => "config: nuxt.config.*"⟩,
    ⟨fun p => p.files.contains "src/app" || p.files.contains "app",
      "next", 0.3, fun _ => "dir: app router structure"⟩,
    ⟨fun p => p.files.contains "pages" || p.files.contains "src/pages",
      "next", 0.1, fun _ => "dir: pages structure"⟩,
    ⟨fun p => p.files.contains "pages" || p.files.contains "src/pages",
      "react", 0.1, fun _ => "dir: pages structure"⟩,
    ⟨fun p => p.files.contains "pages" || p.files.contains "src/pages",
      "nuxt", 0.1, fun _ => "dir: pages structure"⟩,
    ⟨fun p => p.files.contains "config/index.ts" || p.files.contains "config/index.js",
      "taro", 0.3, fun _ => "config: taro-like config/index.*"⟩ ]

/-- Framework confidence (`detect_framework`, lines 159-167). -/
def fwConfidence (topName : String) (topScore secondScore : ℚ) : ℚ :=
  let confidence :=
    if topName = "vanilla" then
      if 0.2 < topScore then (0.55 : ℚ) else 0.35
    else
      let c := min 0.98 (0.45 + topScore * 0.28)
      if topScore - secondScore < 0.25 then c - 0.12 else c
  max 0.1 (round2 confidence)

/-- Result of one weighted-classification axis.  The Python functions
return `(top name, confidence, evidence[top], scores)`; `topScore` and
`secondScore` are the internal `ordered[0][1]` / `ordered[1][1]` values,
exposed here so the properties can be stated. -/
structure AxisResult where
  top : String
  topScore : ℚ
  secondScore : ℚ
  confidence : ℚ
  evidence : List String
  scores : List (String × ℚ)

/-- `detect_framework` (`detect_stack.py`, lines 99-168). -/
def detectFramework (p : Project) : AxisResult :=
  let se := applyRules fwRules p (fwInit, evidenceInit fwLabels)
  let top := pickTop se.1
  let second := runnerUp se.1 top.2
  { top := top.1
    topScore := top.2
    secondScore := second
    confidence := fwConfidence top.1 top.2 second
    evidence := evidenceOf se.2 top.1
    scores := se.1 }

/-- The fixed style enumeration (`detect_style_system`, lines 190-198). -/
def styleInit : List (String × ℚ) :=
  [("tailwind", 0), ("css-modules", 0), ("scss", 0), ("less", 0),
   ("styled-components", 0), ("emotion", 0), ("css", 0.2)]

def styleLabels : List String :=
  ["tailwind", "css-modules", "scss", "less", "styled-components", "emotion", "css"]

def moduleTotal (p : Project) : Nat :=
  p.stats.module_css + p.stats.module_scss + p.stats.module_less

/-- The style scoring rules, in source order
(`detect_style_system`, lines 205-228). -/
def styleRules : List (Rule Project) :=
  [ ⟨fun p => p.deps.contains "tailwindcss", "tailwind", 1.0,
      fun _ => "dependency: tailwindcss"⟩,
    ⟨fun p => p.files.contains "tailwind.config.js" || p.files.contains "tailwind.config.ts",
      "tailwind", 0.5, fun _ => "config: tailwind.config.*"⟩,
    ⟨fun p => 0 < moduleTotal p, "css-modules", 0.9,
      fun p => let mt := moduleTotal p; s!"source: module style files {mt}"⟩,
    ⟨fun p => 0 < p.stats.scss || p.deps.contains "sass", "scss", 0.7,
      fun _ => "source/dependency: scss or sass"⟩,
    ⟨fun p => 0 < p.stats.less || p.deps.contains "less", "less", 0.7,
      fun _ => "source/dependency: less"⟩,
    ⟨fun p => p.deps.contains "styled-components", "styled-components", 1.0,
      fun _ => "dependency: styled-components"⟩,
    ⟨fun p => p.deps.contains "@emotion/react" || p.deps.contains "@emotion/styled",
      "emotion", 1.0, fun _ => "dependency: emotion"⟩ ]

/-- Style confidence (`detect_style_system`, lines 234-237). -/
def styleConfidence (topScore secondScore : ℚ) : ℚ :=
  let c := min 0.98 (0.45 + topScore * 0.35)
  let c := if topScore - secondScore < 0.2 then c - 0.1 else c
  max 0.1 (round2 c)

/-- `detect_style_system` (`detect_stack.py`, lines 188-239). -/
def detectStyleSystem (p : Project) : AxisResult :=
  let se := applyRules styleRules p (styleInit, evidenceInit styleLabels)
  let top := pickTop se.1
  let second := runnerUp se.1 top.2
  { top := top.1
    topScore := top.2
    secondScore := second
    confidence := styleConfidence top.2 second
    evidence := evidenceOf se.2 top.1
    scores := se.1 }

/-- `detect_language` (`detect_stack.py`, lines 171-185). -/
def detectLanguage (p : Project) : String × List String :=
  let tsTotal := p.stats.ts + p.stats.tsx
  let jsTotal := p.stats.js + p.stats.jsx
  if p.files.contains "tsconfig.json" then
    ("typescript", ["file: tsconfig.json"])
  else if jsTotal < tsTotal then
    ("typescript", [s!"source: ts files {tsTotal} > js files {jsTotal}"])
  else
    ("javascript", [s!"source: js files {jsTotal} >= ts files {tsTotal}"])

/-- `detect_package_manager` (`detect_stack.py`, lines 242-251). -/
def detectPackageManager (p : Project) : String × List String :=
  if p.files.contains "pnpm-lock.yaml" then ("pnpm", ["file: pnpm-lock.yaml"])
  else if p.files.contains "yarn.lock" then ("yarn", ["file: yarn.lock"])
  else if p.files.contains "package-lock.json" then ("npm", ["file: package-lock.json"])
  else if p.files.contains "bun.lockb" || p.files.contains "bun.lock" then
    ("bun", ["file: bun lock"])
  else ("npm", ["fallback: no lockfile"])

/-- The JSON report produced by `main` (`detect_stack.py`, lines 312-331). -/
structure MainOutput where
  framework : String
  language : String
  style_system : String
  package_manager : String
  confidence : ℚ
  fwEvidence : List String
  langEvidence : List String
  styleEvidence : List String
  pmEvidence : List String
  fwScoresDiag : List (String × ℚ)
  sourceStatsDiag : SourceStats
  overridesOut : List (String × String)

/-- `main` (`detect_stack.py`, lines 272-334) after input validation:
detection always runs, then a non-`auto` `--framework` / `--style`
argument (modelled as `some label`) replaces that axis's winner,
evidence and confidence. -/
def runMain (p : Project) (fwOverride stOverride : Option String) : MainOutput :=
  let fr := detectFramework p
  let lang := detectLanguage p
  let sr := detectStyleSystem p
  let pm := detectPackageManager p
  let framework := match fwOverride with | some f => f | none => fr.top
  let fwConf : ℚ := match fwOverride with | some _ => 0.99 | none => fr.confidence
  let fwEv := match fwOverride with
    | some f => ["override: framework=" ++ f]
    | none => fr.evidence
  let styleSystem := match stOverride with | some s => s | none => sr.top
  let stConf : ℚ := match stOverride with | some _ => 0.99 | none => sr.confidence
  let stEv := match stOverride with
    | some s => ["override: style=" ++ s]
    | none => sr.evidence
  let fwEv := if fwEv = [] then ["fallback: framework=" ++ framework] else fwEv
  let stEv := if stEv = [] then ["fallback: style_system=" ++ styleSystem] else stEv
  { framework := framework
    language := lang.1
    style_system := styleSystem
    package_manager := pm.1
    confidence := round2 (min 0.99 ((fwConf + stConf) / 2))
    fwEvidence := fwEv
    langEvidence := lang.2
    styleEvidence := stEv
    pmEvidence := pm.2
    fwScoresDiag := fr.scores.map (fun x => (x.1, round2 x.2))
    sourceStatsDiag := p.stats
    overridesOut :=
      (match fwOverride with | some f => [("framework", f)] | none => []) ++
      (match stOverride with | some s => [("style_system", s)] | none => []) }

/-!
## HTML structural inspector (`inspect_html.py`)

`html.parser` tokenization is external standard-library code; the
inspector's handlers are driven here by the stream of parser events
(start tag, self-closing tag, end tag, character data).  The open-tag
stack is kept innermost-first (Python appends at the end and indexes
`stack[-1]`; here the innermost tag is the list head), so Python's
innermost-first downward index scan in `handle_endtag` is removal of the
first matching element from the head.
-/

inductive HEvent
  | start (tag : String) (attrs : List (String × String))
  | selfClose (tag : String) (attrs : List (String × String))
  | close (tag : String)
  | text (s : String)

def semanticTags : List String :=
  ["header", "main", "section", "footer", "nav", "article", "aside", "form"]

def interactiveTags : List String :=
  ["button", "a", "input", "select", "textarea", "summary"]

/-- `attrs_dict = {k: v for k, v in attrs}` followed by `.get(k)`:
a Python dict comprehension keeps the last occurrence of a key.
A valueless HTML attribute (parsed as `None` by `html.parser`) behaves
like the empty string in every use the inspector makes of it
(truthiness tests and comparison with a non-empty literal). -/
def lookupLast : List (String × String) → String → Option String
  | [], _ => none
  | (a, v) :: rest, k =>
    match lookupLast rest k with
    | some r => some r
    | none => if a = k then some v else none

def getAttrD (attrs : List (String × String)) (k : String) : String :=
  (lookupLast attrs k).getD ""

/-- `Counter` increment: bump the count of a key, inserting it at the
end on first occurrence (Python dicts preserve insertion order). -/
def bump : List (String × Nat) → String → List (String × Nat)
  | [], k => [(k, 1)]
  | (a, n) :: rest, k =>
    if a = k then (a, n + 1) :: rest else (a, n) :: bump rest k

/-- Counter lookup. -/
def cnt : List (String × Nat) → String → Nat
  | [], _ => 0
  | (a, n) :: rest, k => if a = k then n else cnt rest k

/-- `class_attr.split()`: split on whitespace runs, dropping empties. -/
def splitClasses (s : String) : List String :=
  ((s.data.splitOnP (fun c => c.isWhitespace)).map String.mk).filter (fun t => t != "")

/-- An interactive-element sample `{tag, id, class, role}`
(`handle_starttag`, lines 48-56). -/
structure InterRec where
  tag : String
  idAttr : String
  classAttr : String
  roleAttr : String
deriving DecidableEq, Repr

/-- The interactive-element test (`handle_starttag`, line 48):
member of the fixed set, or truthy `onclick`, or `role == "button"`. -/
def qualifiesInteractive (tag : String) (attrs : List (String × String)) : Prop :=
  tag ∈ interactiveTags ∨ getAttrD attrs "onclick" ≠ "" ∨
    lookupLast attrs "role" = some "button"

instance (tag : String) (attrs : List (String × String)) :
    Decidable (qualifiesInteractive tag attrs) := by
  unfold qualifiesInteractive; infer_instance

/-- The mutable state of `DraftInspector`. -/
structure Inspector where
  tagCounter : List (String × Nat)
  classCounter : List (String × Nat)
  semanticSections : List (String × Nat)
  interactiveElements : List InterRec
  images : List String
  stylesheets : List String
  scripts : List String
  inlineStyles : List String
  styleBlocks : List String
  inStyle : Bool
  styleBuffer : List String
  stack : List String
  rootChildren : List (String × String × String)

def initInspector : Inspector :=
  ⟨[], [], [], [], [], [], [], [], [], false, [], [], []⟩

/-- `DraftInspector.handle_starttag` (`inspect_html.py`, lines 35-85). -/
def handleStarttag (st : Inspector) (tag : String) (attrs : List (String × String)) :
    Inspector :=
  let classAttr := getAttrD attrs "class"
  let parent := st.stack.headD ""
  { st with
    tagCounter := bump st.tagCounter tag
    classCounter := (splitClasses classAttr).foldl bump st.classCounter
    semanticSections :=
      if tag ∈ semanticTags then bump st.semanticSections tag else st.semanticSections
    interactiveElements :=
      if qualifiesInteractive tag attrs then
        st.interactiveElements ++
          [⟨tag, getAttrD attrs "id", classAttr, getAttrD attrs "role"⟩]
      else st.interactiveElements
    images :=
      if tag = "img" ∧ getAttrD attrs "src" ≠ "" then
        st.images ++ [getAttrD attrs "src"]
      else st.images
    stylesheets :=
      if tag = "link" ∧ getAttrD attrs "href" ≠ "" ∧
          containsSub (lowerStr (getAttrD attrs "rel")) "stylesheet" then
        st.stylesheets ++ [getAttrD attrs "href"]
      else st.stylesheets
    scripts :=
      if tag = "script" ∧ getAttrD attrs "src" ≠ "" then
        st.scripts ++ [getAttrD attrs "src"]
      else st.scripts
    inlineStyles :=
      if getAttrD attrs "style" ≠ "" then st.inlineStyles ++ [getAttrD attrs "style"]
      else st.inlineStyles
    rootChildren :=
      if parent = "body" ∧ st.rootChildren.length < 30 then
        st.rootChildren ++ [(tag, getAttrD attrs "id", classAttr)]
      else st.rootChildren
    inStyle := if tag = "style" then true else st.inStyle
    styleBuffer := if tag = "style" then [] else st.styleBuffer
    stack := tag :: st.stack }

/-- Remove the first (innermost) occurrence of a tag from the stack;
leave the stack unchanged when the tag is not on it
(`handle_endtag`, lines 100-103). -/
def removeFirst : List String → String → List String
  | [], _ => []
  | x :: xs, tag => if x = tag then xs else x :: removeFirst xs tag

/-- `DraftInspector.handle_endtag` (`inspect_html.py`, lines 92-103). -/
def handleEndtag (st : Inspector) (tag : String) : Inspector :=
  let st :=
    if tag = "style" ∧ st.inStyle then
      let txt := trimStr (String.join st.styleBuffer)
      { st with
        inStyle := false
        styleBlocks := if txt ≠ "" then st.styleBlocks ++ [txt] else st.styleBlocks
        styleBuffer := [] }
    else st
  { st with stack := removeFirst st.stack tag }

/-- One parser event (`handle_starttag` / `handle_startendtag` /
`handle_endtag` / `handle_data`). -/
def stepEvent (st : Inspector) : HEvent → Inspector
  | .start tag attrs => handleStarttag st tag attrs
  | .selfClose tag attrs =>
    let st := handleStarttag st tag attrs
    if st.stack.headD "" = tag then { st with stack := st.stack.tail } else st
  | .close tag => handleEndtag st tag
  | .text s => if st.inStyle then { st with styleBuffer := st.styleBuffer ++ [s] } else st

def processFrom (st : Inspector) (es : List HEvent) : Inspector :=
  es.foldl stepEvent st

/-- `inspector.feed(raw_html)`, abstracted over the tokenizer. -/
def processEvents (es : List HEvent) : Inspector :=
  processFrom initInspector es

/-- `sum(inspector.tag_counter.values())` (`main`, line 190). -/
def sumCounts (c : List (String × Nat)) : Nat :=
  (c.map (fun x => x.2)).sum

/-- `summary.element_count` (`main`, line 190). -/
def outElementCount (st : Inspector) : Nat := sumCounts st.tagCounter

/-- `summary.unique_tags` (`main`, line 191). -/
def outUniqueTags (st : Inspector) : Nat := st.tagCounter.length

/-- `summary.interactive_elements` (`main`, line 194). -/
def outInteractiveCount (st : Inspector) : Nat := st.interactiveElements.length

/-- `structure.sample_interactive` (`main`, line 205). -/
def outSampleInteractive (st : Inspector) : List InterRec :=
  st.interactiveElements.take 20

/-- The tag names of the start-tag events of a stream (each self-closing
tag also goes through `handle_starttag`). -/
def startTagsOf : List HEvent → List String
  | [] => []
  | .start t _ :: es => t :: startTagsOf es
  | .selfClose t _ :: es => t :: startTagsOf es
  | _ :: es => startTagsOf es

/-- The class tokens an event contributes to the class counter. -/
def classTokensOf : HEvent → List String
  | .start _ attrs => splitClasses (getAttrD attrs "class")
  | .selfClose _ attrs => splitClasses (getAttrD attrs "class")
  | _ => []

/-- The interactive record an event contributes, if any. -/
def interRecOf : HEvent → Option InterRec
  | .start tag attrs =>
    if qualifiesInteractive tag attrs then
      some ⟨tag, getAttrD attrs "id", getAttrD attrs "class", getAttrD attrs "role"⟩
    else none
  | .selfClose tag attrs =>
    if qualifiesInteractive tag attrs then
      some ⟨tag, getAttrD attrs "id", getAttrD attrs "class", getAttrD attrs "role"⟩
    else none
  | _ => none

/-- Position of the innermost matching open tag (the stack is kept
innermost-first, so this is the first index from the head). -/
def innermostIdx : List String → String → Option Nat
  | [], _ => none
  | x :: xs, tag =>
    if x = tag then some 0 else (innermostIdx xs tag).map (fun i => i + 1)

/-- The spec's description of closing-tag handling: search the open-tag
stack innermost-first for a matching name and remove it at that
position; a tag that is not on the stack leaves the stack unchanged. -/
def specInnermostRemove (stack : List String) (tag : String) : List String :=
  match innermostIdx stack tag with
  | some i => stack.take i ++ stack.drop (i + 1)
  | none => stack

/-!
## CSS token extraction (`inspect_html.py`, lines 110-143)

The five `re.findall` calls are embedded as direct scanners with
Python's `findall` semantics: scan left to right, at each position try
the pattern (alternatives in order, greedy repetition with the minimal
backtracking the patterns need), emit the match (the capture group where
the pattern has one) and resume after it, otherwise advance one
character.  A fuel argument equal to the input length makes the
recursion structural; every successful match consumes at least one
character, so the fuel never runs out.
-/

def isHexDigitC (c : Char) : Bool :=
  c.isDigit || ('a' ≤ c ∧ c ≤ 'f') || ('A' ≤ c ∧ c ≤ 'F')

/-- Python's `\w` on ASCII input. -/
def isWordChar (c : Char) : Bool := c.isAlphanum || c = '_'

/-- `\b` right after a word character: next char missing or non-word. -/
def boundaryOK : List Char → Bool
  | [] => true
  | c :: _ => !isWordChar c

/-- Case-sensitive literal match, returning the rest of the input. -/
def matchLit : List Char → List Char → Option (List Char)
  | [], s => some s
  | _ :: _, [] => none
  | p :: ps, c :: cs => if c = p then matchLit ps cs else none

/-- Case-insensitive literal match (the pattern is given lowercase). -/
def matchLitCI : List Char → List Char → Option (List Char)
  | [], s => some s
  | _ :: _, [] => none
  | p :: ps, c :: cs => if c.toLower = p then matchLitCI ps cs else none

def skipWS (s : List Char) : List Char :=
  s.dropWhile (fun c => c.isWhitespace)

/-- `#(?:[0-9a-fA-F]{3,8})\b` after the `#`: greedy 3-8 hex digits with
backtracking on the trailing word boundary.  `k` is the candidate count
of digits, tried from the largest down to 3. -/
def hashBack (cs : List Char) : Nat → Option (String × List Char)
  | 0 => none
  | 1 => none
  | 2 => none
  | k + 3 =>
    if boundaryOK (cs.drop (k + 3)) then
      some (String.mk ('#' :: cs.take (k + 3)), cs.drop (k + 3))
    else hashBack cs (k + 2)

def colorTryHash : List Char → Option (String × List Char)
  | [] => none
  | c :: cs =>
    if c = '#' then
      let run := cs.takeWhile isHexDigitC
      hashBack cs (min run.length 8)
    else none

/-- `PRE[^)]*\)` for `PRE` one of `rgba(`, `rgb(`, `hsla(`, `hsl(`:
the greedy `[^)]*` stops at the first close paren, which must exist. -/
def colorTryFn (pre : List Char) (s : List Char) : Option (String × List Char) :=
  match matchLit pre s with
  | none => none
  | some r =>
    let args := r.takeWhile (fun c => c ≠ ')')
    match r.drop args.length with
    | ')' :: rest => some (String.mk (pre ++ args ++ [')']), rest)
    | _ => none

/-- One attempt of the color pattern
`#(?:[0-9a-fA-F]{3,8})\b|rgba?\([^)]*\)|hsla?\([^)]*\)` at the current
position (alternatives in order; `a?` is greedy). -/
def colorTryAt (s : List Char) : Option (String × List Char) :=
  match colorTryHash s with
  | some r => some r
  | none =>
    match colorTryFn "rgba(".data s with
    | some r => some r
    | none =>
      match colorTryFn "rgb(".data s with
      | some r => some r
      | none =>
        match colorTryFn "hsla(".data s with
        | some r => some r
        | none => colorTryFn "hsl(".data s

def colorsScanAux : Nat → List Char → List String
  | 0, _ => []
  | _, [] => []
  | fuel + 1, c :: cs =>
    match colorTryAt (c :: cs) with
    | some (m, rest) => m :: colorsScanAux fuel rest
    | none => colorsScanAux fuel cs

/-- `re.findall(r"#(?:[0-9a-fA-F]{3,8})\b|rgba?\([^)]*\)|hsla?\([^)]*\)", css_text)`. -/
def colorsScan (css : String) : List String :=
  colorsScanAux css.data.length css.data

/-- One attempt of `NAME\s*:\s*([^;}{]+)` (case-insensitive) for a fixed
literal `NAME`, returning the capture group and the rest. -/
def propTryOne (name : List Char) (s : List Char) : Option (String × List Char) :=
  match matchLitCI name s with
  | none => none
  | some r1 =>
    match skipWS r1 with
    | [] => none
    | c :: cs =>
      if c = ':' then
        let r3 := skipWS cs
        let grp := r3.takeWhile (fun ch => !(ch = ';' || ch = '\x7b' || ch = '\x7d'))
        if grp.isEmpty then none
        else some (String.mk grp, r3.drop grp.length)
      else none

/-- Alternation `(?:NAME1|NAME2|...)` tried in order at one position
(no listed property name is a prefix of another, so no cross-alternative
backtracking can arise). -/
def propTryAt : List (List Char) → List Char → Option (String × List Char)
  | [], _ => none
  | n :: ns, s =>
    match propTryOne n s with
    | some r => some r
    | none => propTryAt ns s

def propScanAux (names : List (List Char)) : Nat → List Char → List String
  | 0, _ => []
  | _, [] => []
  | fuel + 1, c :: cs =>
    match propTryAt names (c :: cs) with
    | some (m, rest) => m :: propScanAux names fuel rest
    | none => propScanAux names fuel cs

/-- `re.findall(r"(?:NAMES)\s*:\s*([^;}{]+)", css_text, re.IGNORECASE)`. -/
def propScan (names : List String) (css : String) : List String :=
  propScanAux (names.map (fun n => n.data)) css.data.length css.data

/-- `unique_limited` (`inspect_html.py`, lines 110-123): trim each item,
drop empties and duplicates, stop as soon as the result reaches the
limit. -/
def uniqueLimitedAux (limit : Nat) : List String → List String → List String → List String
  | [], _, res => res
  | item :: rest, seen, res =>
    let normalized := trimStr item
    if normalized = "" then uniqueLimitedAux limit rest seen res
    else if normalized ∈ seen then uniqueLimitedAux limit rest seen res
    else
      let res' := res ++ [normalized]
      if limit ≤ res'.length then res'
      else uniqueLimitedAux limit rest (normalized :: seen) res'

def uniqueLimited (items : List String) (limit : Nat) : List String :=
  uniqueLimitedAux limit items [] []

/-- Deduplication keeping the first occurrence, written the way the spec
describes it (independent of the seen-set recursion of the source). -/
def dedupFirst : List String → List String
  | [] => []
  | x :: xs =>
    x :: dedupFirst (xs.filter (fun y => y != x))
termination_by l => l.length
decreasing_by
  simp only [List.length_cons]
  exact Nat.lt_succ_of_le (List.length_filter_le _ _)

/-- Trim all items and drop the empty results (the first two steps the
spec describes for `unique_limited`). -/
def trimFilter : List String → List String
  | [] => []
  | item :: rest =>
    if trimStr item = "" then trimFilter rest else trimStr item :: trimFilter rest

/-- The spec's description of `unique_limited`: map trim, drop empties,
deduplicate keeping first occurrences, cap. -/
def specUniqueLimited (items : List String) (limit : Nat) : List String :=
  (dedupFirst (trimFilter items)).take limit

/-- `extract_tokens` (`inspect_html.py`, lines 126-143). -/
structure Tokens where
  colors : List String
  fontSizes : List String
  spacings : List String
  radii : List String
  shadows : List String
deriving DecidableEq, Repr

def extractTokens (css : String) : Tokens :=
  { colors := uniqueLimited (colorsScan css) 40
    fontSizes := uniqueLimited (propScan ["font-size"] css) 40
    spacings := uniqueLimited
      (propScan ["margin", "padding", "gap", "row-gap", "column-gap"] css) 40
    radii := uniqueLimited (propScan ["border-radius"] css) 40
    shadows := uniqueLimited (propScan ["box-shadow"] css) 40 }

/-!
## Bounded directory traversal (`detect_stack.py`, lines 41-96)

`os.walk` order and directory pruning are filesystem mechanics; the
walk is abstracted as the list of file names it would yield, in order.
`gather_source_stats` scans them one by one and returns as soon as
`max_files` files have been scanned.
-/

/-- `Path(name).suffix`: the part of the final component from its last
dot, provided that dot is neither the first nor the last character. -/
def pathSuffix (name : String) : String :=
  let rev := name.data.reverse
  match rev.findIdx? (fun c => c = '.') with
  | none => ""
  | some j =>
    if 0 < j ∧ j < name.data.length - 1 then
      String.mk ('.' :: (rev.take j).reverse)
    else ""

/-- The `elif` chain on `path.suffix.lower()` (lines 70-87). -/
def suffixUpdate (c : SourceStats) (filename : String) : SourceStats :=
  let sfx := lowerStr (pathSuffix filename)
  if sfx = ".ts" then { c with ts := c.ts + 1 }
  else if sfx = ".tsx" then { c with tsx := c.tsx + 1 }
  else if sfx = ".js" then { c with js := c.js + 1 }
  else if sfx = ".jsx" then { c with jsx := c.jsx + 1 }
  else if sfx = ".vue" then { c with vue := c.vue + 1 }
  else if sfx = ".svelte" then { c with svelte := c.svelte + 1 }
  else if sfx = ".scss" then { c with scss := c.scss + 1 }
  else if sfx = ".less" then { c with less := c.less + 1 }
  else if sfx = ".css" then { c with css := c.css + 1 }
  else c

/-- The `lower_name.endswith(...)` chain (lines 89-94). -/
def moduleUpdate (c : SourceStats) (filename : String) : SourceStats :=
  let lowerName := lowerStr filename
  if List.isSuffixOf ".module.css".data lowerName.data then { c with module_css := c.module_css + 1 }
  else if List.isSuffixOf ".module.scss".data lowerName.data then { c with module_scss := c.module_scss + 1 }
  else if List.isSuffixOf ".module.less".data lowerName.data then { c with module_less := c.module_less + 1 }
  else c

def updateCounts (c : SourceStats) (filename : String) : SourceStats :=
  moduleUpdate (suffixUpdate c filename) filename

/-- The scan loop of `gather_source_stats`: `scanned` files already
consumed, stop (returning the counts so far) once `scanned >= maxFiles`. -/
def gatherAux (maxFiles : Nat) : List String → Nat → SourceStats → SourceStats
  | [], _, c => c
  | f :: fs, scanned, c =>
    if maxFiles ≤ scanned then c
    else gatherAux maxFiles fs (scanned + 1) (updateCounts c f)

/-- `gather_source_stats(project_root, max_files=4000)` over the walked
file list. -/
def gatherSourceStats (files : List String) : SourceStats :=
  gatherAux 4000 files 0 zeroStats

/-- Sum of the nine mutually exclusive suffix counters. -/
def suffixTotal (c : SourceStats) : Nat :=
  c.ts + c.tsx + c.js + c.jsx + c.vue + c.svelte + c.scss + c.less + c.css

/-- Sum of the three mutually exclusive `.module.*` counters. -/
def moduleCounterTotal (c : SourceStats) : Nat :=
  c.module_css + c.module_scss + c.module_less

/-!
## Spec-side and example definitions used by the theorems below
-/

/-- The framework confidence formula as the claim words it: the
"too close to call" reduction phrased as subtracting 0.12 exactly when
the top two scores differ by less than 0.25. -/
def claimC2Confidence (winner : String) (topScore secondScore : ℚ) : ℚ :=
  let raw :=
    if winner = "vanilla" then
      if 0.2 < topScore then (0.55 : ℚ) else 0.35
    else
      min 0.98 (0.45 + topScore * 0.28) -
        (if topScore - secondScore < 0.25 then 0.12 else 0)
  max 0.1 (round2 raw)

/-- A value with exactly two decimal places. -/
def isTwoDecimal (q : ℚ) : Prop := ∃ k : ℤ, q = (k : ℚ) / 100

/-- A project whose only signal is a `next` dependency. -/
def exPrj1 : Project := ⟨["next"], [], zeroStats⟩

/-- The 3-event stream `html.parser` produces for
`<div><span></div>`. -/
def exMalformed : List HEvent :=
  [.start "div" [], .start "span" [], .close "div"]

def insertNew (acc : List String) (t : String) : List String :=
  if t ∈ acc then acc else acc ++ [t]

/-- The example events of
`<div class="card"><div class="card"><button onclick="x()">Go</button></div></div>`. -/
def exNested : List HEvent :=
  [.start "div" [("class", "card")], .start "div" [("class", "card")],
   .start "button" [("onclick", "x()")], .text "Go", .close "button",
   .close "div", .close "div"]

/-- Drop the tokens already seen. -/
def dropSeen (seen : List String) : List String → List String
  | [] => []
  | t :: rest => if t ∈ seen then dropSeen seen rest else t :: dropSeen seen rest

/-!
## Selection lemmas for the weighted classifier
-/

/-- The fold step realising the head of the stable descending sort. -/
def pickStep (b y : String × ℚ) : String × ℚ := if b.2 < y.2 then y else b

lemma pickStep_left_le (b y : String × ℚ) : b.2 ≤ (pickStep b y).2 := by
  unfold pickStep; split
  · exact le_of_lt ‹b.2 < y.2›
  · exact le_refl _

lemma pickStep_right_le (b y : String × ℚ) : y.2 ≤ (pickStep b y).2 := by
  unfold pickStep; split
  · exact le_refl _
  · exact le_of_not_lt ‹¬ b.2 < y.2›

lemma pickFold_spec (xs : List (String × ℚ)) (b : String × ℚ) :
    (xs.foldl pickStep b = b ∨
      ∃ pre post, xs = pre ++ xs.foldl pickStep b :: post ∧
        b.2 < (xs.foldl pickStep b).2 ∧
        ∀ y ∈ pre, y.2 < (xs.foldl pickStep b).2) ∧
    b.2 ≤ (xs.foldl pickStep b).2 ∧ (∀ y ∈ xs, y.2 ≤ (xs.foldl pickStep b).2) := by
  induction xs generalizing b with
  | nil =>
    refine ⟨Or.inl rfl, le_refl _, ?_⟩
    intro y hy; cases hy
  | cons y ys ih =>
    obtain ⟨h1, h2, h3⟩ := ih (pickStep b y)
    have hfold : (y :: ys).foldl pickStep b = ys.foldl pickStep (pickStep b y) := rfl
    refine ⟨?_, ?_, ?_⟩
    · rcases h1 with h1 | ⟨pre, post, hdec, hblt, hpre⟩
      · by_cases hb : b.2 < y.2
        · right
          refine ⟨[], ys, ?_, ?_, ?_⟩
          · rw [hfold, h1]; simp [pickStep, hb]
          · rw [hfold, h1]; simp [pickStep, hb]
          · intro z hz; cases hz
        · left
          rw [hfold, h1]; simp [pickStep, hb]
      · right
        refine ⟨y :: pre, post, ?_, ?_, ?_⟩
        · rw [hfold]; conv_lhs => rw [hdec]
          rfl
        · rw [hfold]; exact lt_of_le_of_lt (pickStep_left_le b y) hblt
        · intro z hz
          rcases List.mem_cons.mp hz with rfl | hz
          · rw [hfold]; exact lt_of_le_of_lt (pickStep_right_le b z) hblt
          · rw [hfold]; exact hpre z hz
    · rw [hfold]; exact le_trans (pickStep_left_le b y) h2
    · intro z hz
      rcases List.mem_cons.mp hz with rfl | hz
      · rw [hfold]; exact le_trans (pickStep_right_le b z) h2
      · rw [hfold]; exact h3 z hz

/-- The head of the stable descending sort splits the list into a
strictly smaller prefix, itself, and a remainder, and bounds every
score. -/
lemma pickTop_spec (x : String × ℚ) (xs : List (String × ℚ)) :
    (∃ pre post, x :: xs = pre ++ pickTop (x :: xs) :: post ∧
      ∀ y ∈ pre, y.2 < (pickTop (x :: xs)).2) ∧
    ∀ y ∈ x :: xs, y.2 ≤ (pickTop (x :: xs)).2 := by
  have hpt : pickTop (x :: xs) = xs.foldl pickStep x := rfl
  obtain ⟨h1, h2, h3⟩ := pickFold_spec xs x
  constructor
  · rcases h1 with h1 | ⟨pre, post, hdec, hblt, hpre⟩
    · refine ⟨[], xs, ?_, ?_⟩
      · rw [hpt, h1]; rfl
      · intro z hz; cases hz
    · refine ⟨x :: pre, post, ?_, ?_⟩
      · rw [hpt]; conv_lhs => rw [hdec]
        rfl
      · intro z hz
        rcases List.mem_cons.mp hz with rfl | hz
        · rw [hpt]; exact hblt
        · rw [hpt]; exact hpre z hz
  · intro z hz
    rcases List.mem_cons.mp hz with rfl | hz
    · rw [hpt]; exact h2
    · rw [hpt]; exact h3 z hz

lemma axis_selection (l : List (String × ℚ)) (hne : l ≠ []) :
    (∃ pre post, l = pre ++ pickTop l :: post ∧
      ∀ y ∈ pre, y.2 < (pickTop l).2) ∧
    ∀ y ∈ l, y.2 ≤ (pickTop l).2 := by
  cases l with
  | nil => exact absurd rfl hne
  | cons x xs => exact pickTop_spec x xs

lemma addScore_keys (s : List (String × ℚ)) (n : String) (p : ℚ) :
    (addScore s n p).map Prod.fst = s.map Prod.fst := by
  induction s with
  | nil => rfl
  | cons x rest ih => unfold addScore; split <;> simp [ih]

lemma applyRules_keys (rules : List (Rule ι)) (i : ι) :
    ∀ st, ((applyRules rules i st).1).map Prod.fst = st.1.map Prod.fst := by
  induction rules with
  | nil => intro st; rfl
  | cons r rs ih =>
    intro st
    have hc : applyRules (r :: rs) i st = applyRules rs i (applyRule i st r) := rfl
    rw [hc, ih]
    unfold applyRule; split
    · exact addScore_keys _ _ _
    · rfl

lemma detectFramework_keys (p : Project) :
    (detectFramework p).scores.map Prod.fst = fwLabels := by
  have h := applyRules_keys fwRules p (fwInit, evidenceInit fwLabels)
  exact h

lemma detectStyleSystem_keys (p : Project) :
    (detectStyleSystem p).scores.map Prod.fst = styleLabels := by
  have h := applyRules_keys styleRules p (styleInit, evidenceInit styleLabels)
  exact h

lemma detectFramework_scores_ne_nil (p : Project) : (detectFramework p).scores ≠ [] := by
  intro h
  have hk := detectFramework_keys p
  rw [h] at hk
  exact absurd hk (by decide)

lemma detectStyleSystem_scores_ne_nil (p : Project) : (detectStyleSystem p).scores ≠ [] := by
  intro h
  have hk := detectStyleSystem_keys p
  rw [h] at hk
  exact absurd hk (by decide)

/-- C1: on each weighted axis the reported winner's score is maximal
among the axis's candidates, and the winner is the first-declared label
attaining that maximum (every label declared before it scores strictly
less), with the candidate enumerations fixed as in the source. -/
theorem claim_c1 (p q : Project) :
    ((detectFramework p).scores.map Prod.fst = fwLabels ∧
      (∀ x ∈ (detectFramework p).scores, x.2 ≤ (detectFramework p).topScore) ∧
      ∃ pre post,
        (detectFramework p).scores =
          pre ++ ((detectFramework p).top, (detectFramework p).topScore) :: post ∧
        ∀ x ∈ pre, x.2 < (detectFramework p).topScore) ∧
    ((detectStyleSystem q).scores.map Prod.fst = styleLabels ∧
      (∀ x ∈ (detectStyleSystem q).scores, x.2 ≤ (detectStyleSystem q).topScore) ∧
      ∃ pre post,
        (detectStyleSystem q).scores =
          pre ++ ((detectStyleSystem q).top, (detectStyleSystem q).topScore) :: post ∧
        ∀ x ∈ pre, x.2 < (detectStyleSystem q).topScore) := by
  constructor
  · obtain ⟨⟨pre, post, hdec, hpre⟩, hmax⟩ :=
      axis_selection (detectFramework p).scores (detectFramework_scores_ne_nil p)
    exact ⟨detectFramework_keys p, hmax, pre, post, hdec, hpre⟩
  · obtain ⟨⟨pre, post, hdec, hpre⟩, hmax⟩ :=
      axis_selection (detectStyleSystem q).scores (detectStyleSystem_scores_ne_nil q)
    exact ⟨detectStyleSystem_keys q, hmax, pre, post, hdec, hpre⟩

lemma fwConfidence_eq_claim (n : String) (ts ss : ℚ) :
    fwConfidence n ts ss = claimC2Confidence n ts ss := by
  unfold fwConfidence claimC2Confidence
  by_cases h : n = "vanilla"
  · simp [h]
  · by_cases h2 : ts - ss < 0.25
    · simp [h, h2]
    · simp [h, h2]

/-- C2: the framework-axis confidence is exactly the claimed formula
of the winner, the top score and the runner-up score. -/
theorem claim_c2 (p : Project) :
    (detectFramework p).confidence =
      claimC2Confidence (detectFramework p).top (detectFramework p).topScore
        (detectFramework p).secondScore :=
  fwConfidence_eq_claim _ _ _

lemma scoreOf_addScore_ne (s : List (String × ℚ)) (n m : String) (p : ℚ)
    (h : n ≠ m) : scoreOf (addScore s n p) m = scoreOf s m := by
  induction s with
  | nil => rfl
  | cons x rest ih =>
    unfold addScore
    by_cases hx : x.1 = n
    · have hxm : ¬ x.1 = m := by rw [hx]; exact h
      simp [hx, scoreOf, hxm, h]
    · by_cases hxm : x.1 = m
      · simp [hx, scoreOf, hxm, Ne.symm h]
      · simp [hx, scoreOf, hxm, ih]

lemma scoreOf_applyRules : ∀ (rules : List (Rule ι)) (i : ι) (m : String)
    (st : List (String × ℚ) × List (String × List String)),
    (∀ r ∈ rules, r.label ≠ m) →
    scoreOf (applyRules rules i st).1 m = scoreOf st.1 m := by
  intro rules i m
  induction rules with
  | nil => intro st _; rfl
  | cons r rs ih =>
    intro st h
    have h1 : r.label ≠ m := h r (List.mem_cons_self r rs)
    have h2 : ∀ x ∈ rs, x.label ≠ m := fun x hx => h x (List.mem_cons_of_mem _ hx)
    have hc : applyRules (r :: rs) i st = applyRules rs i (applyRule i st r) := rfl
    rw [hc, ih _ h2]
    unfold applyRule; split
    · exact scoreOf_addScore_ne _ _ _ _ h1
    · rfl

lemma scoreOf_eq_of_mem : ∀ (l : List (String × ℚ)) (n : String) (v : ℚ),
    (l.map Prod.fst).Nodup → (n, v) ∈ l → scoreOf l n = v := by
  intro l
  induction l with
  | nil => intro n v _ h; cases h
  | cons x rest ih =>
    intro n v hnd hmem
    rw [List.map_cons, List.nodup_cons] at hnd
    rcases List.mem_cons.mp hmem with heq | hmem
    · rw [← heq]; simp [scoreOf]
    · have hx : ¬ x.1 = n := by
        intro hcontra
        exact hnd.1 (hcontra ▸ List.mem_map.mpr ⟨(n, v), hmem, rfl⟩)
      simp [scoreOf, hx]
      exact ih n v hnd.2 hmem


/-!
## Rounding lemmas
-/

lemma round2_mono {x y : ℚ} (h : x ≤ y) : round2 x ≤ round2 y := by
  unfold round2
  have h1 : round (100 * x) ≤ round (100 * y) := by
    rw [round_eq, round_eq]
    exact Int.floor_mono (by linarith)
  have h2 : ((round (100 * x) : ℤ) : ℚ) ≤ ((round (100 * y) : ℤ) : ℚ) := by
    exact_mod_cast h1
  exact (div_le_div_iff_of_pos_right (by norm_num)).mpr h2

lemma round2_fixed (k : ℤ) : round2 ((k : ℚ) / 100) = (k : ℚ) / 100 := by
  unfold round2
  have h : (100 : ℚ) * ((k : ℚ) / 100) = (k : ℚ) := by field_simp
  rw [h, round_intCast]

lemma round2_le_const {x : ℚ} (k : ℤ) (h : x ≤ (k : ℚ) / 100) :
    round2 x ≤ (k : ℚ) / 100 :=
  le_of_le_of_eq (round2_mono h) (round2_fixed k)

lemma const_le_round2 {x : ℚ} (k : ℤ) (h : (k : ℚ) / 100 ≤ x) :
    (k : ℚ) / 100 ≤ round2 x :=
  le_of_eq_of_le (round2_fixed k).symm (round2_mono h)

/-- Evaluate `round2` at an explicit rational. -/
lemma round2_val (q : ℚ) (k : ℤ) (h1 : (k : ℚ) ≤ 100 * q + 1/2)
    (h2 : 100 * q + 1/2 < k + 1) : round2 q = (k : ℚ) / 100 := by
  unfold round2
  rw [round_eq]
  have h : ⌊(100 : ℚ) * q + 1/2⌋ = k := by
    rw [Int.floor_eq_iff]
    exact ⟨h1, h2⟩
  rw [h]

lemma isTwoDecimal_round2 (q : ℚ) : isTwoDecimal (round2 q) :=
  ⟨round (100 * q), rfl⟩

lemma isTwoDecimal_max {a b : ℚ} (ha : isTwoDecimal a) (hb : isTwoDecimal b) :
    isTwoDecimal (max a b) := by
  rcases max_choice a b with h | h <;> rw [h] <;> assumption

/-!
## C10: the vanilla baseline is invariant
-/

lemma fwConfidence_vanilla_base (ss : ℚ) : fwConfidence "vanilla" 0.2 ss = 0.35 := by
  simp only [fwConfidence]
  norm_num
  rw [round2_val (7/20) 35 (by norm_num) (by norm_num)]
  norm_num

/-- C10: no framework scoring rule targets `vanilla`, so its score stays
at the 0.2 baseline at every point of the run, and whenever `vanilla`
wins, the framework confidence is 0.35 (the score never exceeds the
baseline, so the 0.55 branch is dead). -/
theorem claim_c10 (p : Project) :
    (∀ n, scoreOf (applyRules (fwRules.take n) p (fwInit, evidenceInit fwLabels)).1
      "vanilla" = 0.2) ∧
    scoreOf (detectFramework p).scores "vanilla" = 0.2 ∧
    ((detectFramework p).top = "vanilla" → (detectFramework p).confidence = 0.35) := by
  have hno : ∀ r ∈ fwRules, r.label ≠ "vanilla" := by decide
  have hinit : scoreOf fwInit "vanilla" = 0.2 := by simp [scoreOf, fwInit]
  have hfull : scoreOf (applyRules fwRules p (fwInit, evidenceInit fwLabels)).1
      "vanilla" = 0.2 := by
    rw [scoreOf_applyRules fwRules p "vanilla" _ hno]; exact hinit
  refine ⟨?_, hfull, ?_⟩
  · intro n
    have hsub : ∀ r ∈ fwRules.take n, r.label ≠ "vanilla" :=
      fun r hr => hno r (List.take_subset n fwRules hr)
    rw [scoreOf_applyRules _ p "vanilla" _ hsub]; exact hinit
  · intro htop
    have hk := detectFramework_keys p
    have hnd : ((detectFramework p).scores.map Prod.fst).Nodup := by
      rw [hk]; decide
    obtain ⟨⟨pre, post, hdec, _⟩, _⟩ :=
      axis_selection (detectFramework p).scores (detectFramework_scores_ne_nil p)
    have hmem : ((detectFramework p).top, (detectFramework p).topScore) ∈
        (detectFramework p).scores := by
      rw [hdec]
      exact List.mem_append.mpr (Or.inr (List.mem_cons_self _ _))
    rw [htop] at hmem
    have hts : (detectFramework p).topScore = 0.2 := by
      have h := scoreOf_eq_of_mem _ _ _ hnd hmem
      rw [← h]; exact hfull
    have hconf : (detectFramework p).confidence =
        fwConfidence (detectFramework p).top (detectFramework p).topScore
          (detectFramework p).secondScore := rfl
    rw [hconf, htop, hts]
    exact fwConfidence_vanilla_base _

theorem claim_c10_witness :
    (detectFramework ⟨[], [], zeroStats⟩).top = "vanilla" ∧
    (detectFramework ⟨[], [], zeroStats⟩).confidence = 0.35 := by
  have htop : (detectFramework ⟨[], [], zeroStats⟩).top = "vanilla" := by
    simp [detectFramework, applyRules, applyRule, fwRules, fwInit, evidenceInit,
      fwLabels, addScore, addReason, pickTop, List.isPrefixOf]
    norm_num
  exact ⟨htop, (claim_c10 ⟨[], [], zeroStats⟩).2.2 htop⟩

/-!
## C5: confidence ranges and non-negative scores
-/

/-- `max(0.1, round(b, 2))` lies in [0.1, 0.99] and has two decimals
whenever the raw confidence is at most 0.98. -/
lemma conf_clamp_bounds (b : ℚ) (hb : b ≤ 0.98) :
    0.1 ≤ max 0.1 (round2 b) ∧ max 0.1 (round2 b) ≤ 0.99 ∧
      isTwoDecimal (max 0.1 (round2 b)) := by
  refine ⟨le_max_left _ _, ?_, ?_⟩
  · have h98 : ((98 : ℤ) : ℚ) / 100 = 0.98 := by norm_num
    have h1 : round2 b ≤ 0.98 := by
      rw [← h98]; exact round2_le_const 98 (by rw [h98]; exact hb)
    have h2 : max 0.1 (round2 b) ≤ 0.98 := max_le (by norm_num) h1
    linarith
  · exact isTwoDecimal_max ⟨10, by norm_num⟩ (isTwoDecimal_round2 b)

lemma fwConfidence_bounds (n : String) (ts ss : ℚ) :
    0.1 ≤ fwConfidence n ts ss ∧ fwConfidence n ts ss ≤ 0.99 ∧
      isTwoDecimal (fwConfidence n ts ss) := by
  have hb : (if n = "vanilla" then if 0.2 < ts then (0.55 : ℚ) else 0.35
      else if ts - ss < 0.25 then min 0.98 (0.45 + ts * 0.28) - 0.12
      else min 0.98 (0.45 + ts * 0.28)) ≤ 0.98 := by
    split
    · split <;> norm_num
    · split
      · linarith [min_le_left (0.98 : ℚ) (0.45 + ts * 0.28)]
      · exact min_le_left _ _
  exact conf_clamp_bounds _ hb

lemma styleConfidence_bounds (ts ss : ℚ) :
    0.1 ≤ styleConfidence ts ss ∧ styleConfidence ts ss ≤ 0.99 ∧
      isTwoDecimal (styleConfidence ts ss) := by
  have hb : (if ts - ss < 0.2 then min 0.98 (0.45 + ts * 0.35) - 0.1
      else min 0.98 (0.45 + ts * 0.35)) ≤ 0.98 := by
    split
    · linarith [min_le_left (0.98 : ℚ) (0.45 + ts * 0.35)]
    · exact min_le_left _ _
  exact conf_clamp_bounds _ hb

/-- The report-level `round(min(0.99, (a + b) / 2), 2)` stays in
[0.1, 0.99] with two decimals when both axis confidences do. -/
lemma combined_bounds {a b : ℚ} (ha1 : 0.1 ≤ a) (hb1 : 0.1 ≤ b) :
    0.1 ≤ round2 (min 0.99 ((a + b) / 2)) ∧
      round2 (min 0.99 ((a + b) / 2)) ≤ 0.99 ∧
      isTwoDecimal (round2 (min 0.99 ((a + b) / 2))) := by
  have hlo : (0.1 : ℚ) ≤ min 0.99 ((a + b) / 2) := le_min (by norm_num) (by linarith)
  have hhi : min 0.99 ((a + b) / 2) ≤ 0.99 := min_le_left _ _
  have h10 : ((10 : ℤ) : ℚ) / 100 = 0.1 := by norm_num
  have h99 : ((99 : ℤ) : ℚ) / 100 = 0.99 := by norm_num
  refine ⟨?_, ?_, isTwoDecimal_round2 _⟩
  · rw [← h10]; exact const_le_round2 10 (by rw [h10]; exact hlo)
  · rw [← h99]; exact round2_le_const 99 (by rw [h99]; exact hhi)

lemma addScore_nonneg (s : List (String × ℚ)) (n : String) (pts : ℚ)
    (hs : ∀ x ∈ s, 0 ≤ x.2) (hp : 0 ≤ pts) : ∀ x ∈ addScore s n pts, 0 ≤ x.2 := by
  induction s with
  | nil => intro x hx; cases hx
  | cons y rest ih =>
    intro x hx
    unfold addScore at hx
    split at hx
    · rcases List.mem_cons.mp hx with rfl | hx
      · have := hs y (List.mem_cons_self y rest)
        simpa using add_nonneg this hp
      · exact hs x (List.mem_cons_of_mem _ hx)
    · rcases List.mem_cons.mp hx with rfl | hx
      · exact hs x (List.mem_cons_self x rest)
      · exact ih (fun z hz => hs z (List.mem_cons_of_mem _ hz)) x hx

lemma applyRules_nonneg : ∀ (rules : List (Rule ι)) (i : ι)
    (st : List (String × ℚ) × List (String × List String)),
    (∀ x ∈ st.1, 0 ≤ x.2) → (∀ r ∈ rules, 0 ≤ r.pts) →
    ∀ x ∈ (applyRules rules i st).1, 0 ≤ x.2 := by
  intro rules i
  induction rules with
  | nil => intro st hst _; exact hst
  | cons r rs ih =>
    intro st hst hr
    have hr1 : 0 ≤ r.pts := hr r (List.mem_cons_self r rs)
    have hr2 : ∀ x ∈ rs, 0 ≤ x.pts := fun x hx => hr x (List.mem_cons_of_mem _ hx)
    have hstep : ∀ x ∈ (applyRule i st r).1, 0 ≤ x.2 := by
      unfold applyRule; split
      · exact addScore_nonneg st.1 r.label r.pts hst hr1
      · exact hst
    exact ih (applyRule i st r) hstep hr2

lemma fwRules_pts_nonneg : ∀ r ∈ fwRules, 0 ≤ r.pts := by
  intro r hr; fin_cases hr <;> norm_num

lemma styleRules_pts_nonneg : ∀ r ∈ styleRules, 0 ≤ r.pts := by
  intro r hr; fin_cases hr <;> norm_num

lemma fwInit_nonneg : ∀ x ∈ fwInit, 0 ≤ x.2 := by
  intro x hx; fin_cases hx <;> norm_num

lemma styleInit_nonneg : ∀ x ∈ styleInit, 0 ≤ x.2 := by
  intro x hx; fin_cases hx <;> norm_num

/-- C5: every confidence the classifier emits (each weighted axis, the
override value, and the report's combined field) lies in [0.1, 0.99] and
is a two-decimal value, and every label score is non-negative at every
point of the run (after any prefix of the rule list). -/
theorem claim_c5 (p : Project) (fwO stO : Option String) :
    (0.1 ≤ (detectFramework p).confidence ∧ (detectFramework p).confidence ≤ 0.99 ∧
      isTwoDecimal (detectFramework p).confidence) ∧
    (0.1 ≤ (detectStyleSystem p).confidence ∧ (detectStyleSystem p).confidence ≤ 0.99 ∧
      isTwoDecimal (detectStyleSystem p).confidence) ∧
    (0.1 ≤ (runMain p fwO stO).confidence ∧ (runMain p fwO stO).confidence ≤ 0.99 ∧
      isTwoDecimal (runMain p fwO stO).confidence) ∧
    (∀ n, ∀ x ∈ (applyRules (fwRules.take n) p (fwInit, evidenceInit fwLabels)).1,
      0 ≤ x.2) ∧
    (∀ n, ∀ x ∈ (applyRules (styleRules.take n) p (styleInit, evidenceInit styleLabels)).1,
      0 ≤ x.2) := by
  have hfw := fwConfidence_bounds (detectFramework p).top (detectFramework p).topScore
    (detectFramework p).secondScore
  have hst := styleConfidence_bounds (detectStyleSystem p).topScore
    (detectStyleSystem p).secondScore
  refine ⟨hfw, hst, ?_, ?_, ?_⟩
  · cases fwO <;> cases stO
    · exact combined_bounds hfw.1 hst.1
    · exact combined_bounds hfw.1 (by norm_num)
    · exact combined_bounds (by norm_num) hst.1
    · exact combined_bounds (by norm_num : (0.1 : ℚ) ≤ 0.99) (by norm_num)
  · intro n
    exact applyRules_nonneg _ p _ fwInit_nonneg
      (fun r hr => fwRules_pts_nonneg r (List.take_subset n fwRules hr))
  · intro n
    exact applyRules_nonneg _ p _ styleInit_nonneg
      (fun r hr => styleRules_pts_nonneg r (List.take_subset n styleRules hr))

/-!
## C3: override behaviour
-/

lemma exPrj1_fwScores : (detectFramework exPrj1).scores =
    [("next", 1.2), ("react", 0), ("nuxt", 0), ("vue", 0), ("taro", 0),
     ("svelte", 0), ("vanilla", 0.2)] := by
  show (applyRules fwRules exPrj1 (fwInit, evidenceInit fwLabels)).1 = _
  simp [applyRules, applyRule, fwRules, fwInit, evidenceInit, fwLabels, addScore,
    addReason, exPrj1, List.isPrefixOf]

lemma exPrj1_styleTop : (detectStyleSystem exPrj1).topScore = 0.2 ∧
    (detectStyleSystem exPrj1).secondScore = 0 := by
  constructor
  · simp [detectStyleSystem, applyRules, applyRule, styleRules, styleInit, evidenceInit,
      styleLabels, addScore, addReason, pickTop, moduleTotal, exPrj1, zeroStats]
    norm_num
  · simp [detectStyleSystem, applyRules, applyRule, styleRules, styleInit, evidenceInit,
      styleLabels, addScore, addReason, pickTop, runnerUp, removeFirstScore, restMax,
      moduleTotal, exPrj1, zeroStats]
    norm_num

lemma exPrj1_styleConf : (detectStyleSystem exPrj1).confidence = 0.52 := by
  have hc : (detectStyleSystem exPrj1).confidence =
      styleConfidence (detectStyleSystem exPrj1).topScore
        (detectStyleSystem exPrj1).secondScore := rfl
  rw [hc, exPrj1_styleTop.1, exPrj1_styleTop.2]
  simp only [styleConfidence]
  norm_num
  rw [round2_val (13/25) 52 (by norm_num) (by norm_num)]
  norm_num

lemma round2_of_eq {q v : ℚ} (k : ℤ) (h : q = (k : ℚ) / 100) (hv : (k : ℚ) / 100 = v) :
    round2 q = v := by rw [h, round2_fixed, hv]

/-- C3 fails as stated: with only the framework overridden, the report's
`confidence` field is the rounded average of 0.99 and the computed style
confidence (0.76 here, not 0.99), and the scoring rules are still
evaluated before the override is applied — the emitted diagnostics carry
the computed framework scores (`next` earned 1.2 from its dependency
rule despite the `vue` override). -/
theorem claim_c3_counterexample :
    (runMain exPrj1 (some "vue") none).framework = "vue" ∧
    (runMain exPrj1 (some "vue") none).fwEvidence = ["override: framework=vue"] ∧
    (runMain exPrj1 (some "vue") none).confidence = 0.76 ∧
    (0.76 : ℚ) ≠ 0.99 ∧
    (runMain exPrj1 (some "vue") none).fwScoresDiag =
      [("next", 1.2), ("react", 0), ("nuxt", 0), ("vue", 0), ("taro", 0),
       ("svelte", 0), ("vanilla", 0.2)] := by
  refine ⟨rfl, by decide, ?_, by norm_num, ?_⟩
  · have hc : (runMain exPrj1 (some "vue") none).confidence =
        round2 (min 0.99 ((0.99 + (detectStyleSystem exPrj1).confidence) / 2)) := rfl
    rw [hc, exPrj1_styleConf]
    have harg : min (0.99 : ℚ) ((0.99 + 0.52) / 2) = 151/200 := by
      rw [min_eq_right (by norm_num)]
      norm_num
    rw [harg, round2_val (151/200) 76 (by norm_num) (by norm_num)]
    norm_num
  · have hd : (runMain exPrj1 (some "vue") none).fwScoresDiag =
        (detectFramework exPrj1).scores.map (fun x => (x.1, round2 x.2)) := rfl
    have r0 : round2 0 = 0 := round2_of_eq 0 (by norm_num) (by norm_num)
    have r12 : round2 1.2 = 1.2 := round2_of_eq 120 (by norm_num) (by norm_num)
    have r02 : round2 0.2 = 0.2 := round2_of_eq 20 (by norm_num) (by norm_num)
    rw [hd, exPrj1_fwScores]
    simp [r0, r12, r02]

/-- C3 amended: an override forces the winner on its axis, replaces
that axis's evidence with the single override marker, and sets that
axis's confidence to 0.99; the report's `confidence` field is not in
general 0.99 — it is the rounded capped average of the two axis
confidences: 0.99 when both axes are overridden, while with a single
override it mixes in the other axis's computed confidence and can
differ from 0.99.  Detection is not short-circuited: the rule-derived
scores still appear in the emitted diagnostics. -/
theorem claim_c3_amended (p : Project) (f s : String) :
    ((runMain p (some f) (some s)).framework = f ∧
     (runMain p (some f) (some s)).style_system = s ∧
     (runMain p (some f) (some s)).fwEvidence = ["override: framework=" ++ f] ∧
     (runMain p (some f) (some s)).styleEvidence = ["override: style=" ++ s] ∧
     (runMain p (some f) (some s)).confidence = 0.99 ∧
     (runMain p (some f) (some s)).overridesOut =
       [("framework", f), ("style_system", s)]) ∧
    ((runMain p (some f) none).framework = f ∧
     (runMain p (some f) none).fwEvidence = ["override: framework=" ++ f] ∧
     (runMain p (some f) none).confidence =
       round2 (min 0.99 ((0.99 + (detectStyleSystem p).confidence) / 2)) ∧
     (runMain p (some f) none).fwScoresDiag =
       (detectFramework p).scores.map (fun x => (x.1, round2 x.2))) ∧
    ((runMain p none (some s)).style_system = s ∧
     (runMain p none (some s)).styleEvidence = ["override: style=" ++ s] ∧
     (runMain p none (some s)).confidence =
       round2 (min 0.99 (((detectFramework p).confidence + 0.99) / 2))) := by
  have hboth : (runMain p (some f) (some s)).confidence = 0.99 := by
    have hc : (runMain p (some f) (some s)).confidence =
        round2 (min 0.99 (((0.99 : ℚ) + 0.99) / 2)) := rfl
    rw [hc, show min (0.99 : ℚ) ((0.99 + 0.99) / 2) = 99/100 by
      rw [min_eq_right (by norm_num)]; norm_num]
    exact round2_of_eq 99 (by norm_num) (by norm_num)
  exact ⟨⟨rfl, rfl, rfl, rfl, hboth, rfl⟩, ⟨rfl, rfl, rfl, rfl⟩, ⟨rfl, rfl, rfl⟩⟩

/-!
## C4: lenient closing-tag handling
-/

lemma removeFirst_eq_spec : ∀ (st : List String) (tag : String),
    removeFirst st tag = specInnermostRemove st tag := by
  intro st tag
  induction st with
  | nil => rfl
  | cons x xs ih =>
    by_cases hx : x = tag
    · simp [removeFirst, specInnermostRemove, innermostIdx, hx]
    · simp only [removeFirst, specInnermostRemove, innermostIdx, if_neg hx]
      cases hfi : innermostIdx xs tag with
      | none =>
        rw [ih]
        simp [specInnermostRemove, hfi]
      | some i =>
        rw [ih]
        simp [specInnermostRemove, hfi]

lemma stepEvent_close_stack (st : Inspector) (tag : String) :
    (stepEvent st (.close tag)).stack = removeFirst st.stack tag := by
  simp only [stepEvent, handleEndtag]
  split <;> rfl

/-- C4 fails as stated in its example: on `<div><span></div>` the
closing `div` removes the matching (outermost) `div` and the unmatched
`span` stays on the stack, so the stack is `["span"]`, not empty. -/
theorem claim_c4_counterexample :
    (processEvents exMalformed).stack = ["span"] ∧
    (processEvents exMalformed).stack ≠ [] := by
  decide

/-- C4 amended: a closing tag removes the innermost matching entry of
the open-tag stack (a tag with no match leaves the stack unchanged), the
inspector never fails on mismatched tags (every handler is total), and
on `<div><span></div>` the single closing tag removes the matching
`div`, leaving the unmatched `span` as the whole stack. -/
theorem claim_c4_amended :
    (∀ st tag, removeFirst st tag = specInnermostRemove st tag) ∧
    (∀ (st : Inspector) (tag : String),
      (stepEvent st (.close tag)).stack = removeFirst st.stack tag) ∧
    (processEvents exMalformed).stack = ["span"] := by
  exact ⟨removeFirst_eq_spec, stepEvent_close_stack, by decide⟩

/-!
## C6/C7: counter and interactive-element invariants
-/

lemma sumCounts_bump (c : List (String × Nat)) (k : String) :
    sumCounts (bump c k) = sumCounts c + 1 := by
  induction c with
  | nil => rfl
  | cons x rest ih =>
    obtain ⟨a, n⟩ := x
    unfold bump
    split <;> simp [sumCounts] at ih ⊢ <;> omega

lemma cnt_bump (c : List (String × Nat)) (k k' : String) :
    cnt (bump c k) k' = cnt c k' + (if k = k' then 1 else 0) := by
  induction c with
  | nil =>
    by_cases h : k = k'
    · simp [bump, cnt, h]
    · simp [bump, cnt, h, fun hh => h hh]
  | cons x rest ih =>
    obtain ⟨a, n⟩ := x
    unfold bump
    by_cases ha : a = k
    · by_cases ha' : a = k'
      · simp [cnt, ha, ha', ha ▸ ha']
      · have : ¬ k = k' := fun hh => ha' (ha.trans hh)
        simp [cnt, ha, ha', this]
    · by_cases ha' : a = k'
      · have h1 : ¬ k' = k := fun hh => ha (ha' ▸ hh)
        have h2 : ¬ k = k' := fun hh => h1 hh.symm
        simp [cnt, ha', h1, h2]
      · simp [cnt, ha, ha', ih]

lemma cnt_foldl_bump (toks : List String) :
    ∀ (c : List (String × Nat)) (k : String),
    cnt (toks.foldl bump c) k = cnt c k + toks.count k := by
  induction toks with
  | nil => intro c k; simp
  | cons t ts ih =>
    intro c k
    show cnt (ts.foldl bump (bump c t)) k = _
    rw [ih, cnt_bump]
    rw [List.count_cons]
    by_cases h : t = k <;> (simp [h]; try omega)

lemma keys_bump (c : List (String × Nat)) (k : String) :
    (bump c k).map Prod.fst = insertNew (c.map Prod.fst) k := by
  induction c with
  | nil => simp [bump, insertNew]
  | cons x rest ih =>
    obtain ⟨a, n⟩ := x
    unfold bump
    by_cases ha : a = k
    · simp [insertNew, ha]
    · have hk : ¬ k = a := fun hh => ha hh.symm
      by_cases hmem : k ∈ rest.map Prod.fst
      · simp [insertNew, ha, hmem, hk, ih]
      · simp [insertNew, ha, hmem, hk, ih]

lemma mem_insertNew (acc : List String) (t a : String) :
    a ∈ insertNew acc t ↔ a ∈ acc ∨ a = t := by
  unfold insertNew
  split
  · constructor
    · exact fun h => Or.inl h
    · rintro (h | rfl)
      · exact h
      · assumption
  · simp

lemma nodup_insertNew (acc : List String) (t : String) (h : acc.Nodup) :
    (insertNew acc t).Nodup := by
  unfold insertNew
  split
  · exact h
  · simp [List.nodup_append, h, *]

lemma nodup_foldl_insertNew (l : List String) :
    ∀ acc, acc.Nodup → (l.foldl insertNew acc).Nodup := by
  induction l with
  | nil => intro acc h; exact h
  | cons x xs ih => intro acc h; exact ih _ (nodup_insertNew acc x h)

lemma mem_foldl_insertNew (l : List String) :
    ∀ acc a, a ∈ l.foldl insertNew acc ↔ a ∈ acc ∨ a ∈ l := by
  induction l with
  | nil => intro acc a; simp
  | cons x xs ih =>
    intro acc a
    show a ∈ xs.foldl insertNew (insertNew acc x) ↔ _
    rw [ih, mem_insertNew]
    simp only [List.mem_cons]
    tauto

lemma length_foldl_insertNew (l : List String) :
    (l.foldl insertNew []).length = l.toFinset.card := by
  have hnd : (l.foldl insertNew []).Nodup := nodup_foldl_insertNew l [] List.nodup_nil
  have hts : (l.foldl insertNew []).toFinset = l.toFinset := by
    apply Finset.ext
    intro a
    simp [List.mem_toFinset, mem_foldl_insertNew]
  rw [← List.toFinset_card_of_nodup hnd, hts]

lemma stepEvent_tagCounter (st : Inspector) (e : HEvent) :
    (stepEvent st e).tagCounter =
      match e with
      | .start t _ => bump st.tagCounter t
      | .selfClose t _ => bump st.tagCounter t
      | _ => st.tagCounter := by
  cases e with
  | start t a => rfl
  | selfClose t a => simp only [stepEvent]; split <;> rfl
  | close t => simp only [stepEvent, handleEndtag]; split <;> rfl
  | text s => simp only [stepEvent]; split <;> rfl

lemma stepEvent_classCounter (st : Inspector) (e : HEvent) :
    (stepEvent st e).classCounter = (classTokensOf e).foldl bump st.classCounter := by
  cases e with
  | start t a => rfl
  | selfClose t a => simp only [stepEvent]; split <;> rfl
  | close t => simp only [stepEvent, handleEndtag, classTokensOf]; split <;> rfl
  | text s => simp only [stepEvent, classTokensOf]; split <;> rfl

lemma stepEvent_interactive (st : Inspector) (e : HEvent) :
    (stepEvent st e).interactiveElements =
      st.interactiveElements ++ (interRecOf e).toList := by
  cases e with
  | start t a =>
    show (handleStarttag st t a).interactiveElements = _
    simp only [handleStarttag, interRecOf]
    split <;> simp
  | selfClose t a =>
    simp only [stepEvent]
    split <;>
      (show (handleStarttag st t a).interactiveElements = _
       simp only [handleStarttag, interRecOf]
       split <;> simp)
  | close t => simp only [stepEvent, handleEndtag, interRecOf]; split <;> simp
  | text s => simp only [stepEvent, interRecOf]; split <;> simp

lemma processFrom_tagSum : ∀ (es : List HEvent) (st : Inspector),
    sumCounts (processFrom st es).tagCounter =
      sumCounts st.tagCounter + (startTagsOf es).length := by
  intro es
  induction es with
  | nil => intro st; simp [processFrom, startTagsOf]
  | cons e es ih =>
    intro st
    show sumCounts (processFrom (stepEvent st e) es).tagCounter = _
    rw [ih, stepEvent_tagCounter]
    cases e <;> simp [startTagsOf, sumCounts_bump] <;> omega

lemma processFrom_tagKeys : ∀ (es : List HEvent) (st : Inspector),
    (processFrom st es).tagCounter.map Prod.fst =
      (startTagsOf es).foldl insertNew (st.tagCounter.map Prod.fst) := by
  intro es
  induction es with
  | nil => intro st; simp [processFrom, startTagsOf]
  | cons e es ih =>
    intro st
    show (processFrom (stepEvent st e) es).tagCounter.map Prod.fst = _
    rw [ih, stepEvent_tagCounter]
    cases e <;> simp [startTagsOf, keys_bump]

lemma processFrom_classCnt : ∀ (es : List HEvent) (st : Inspector) (cls : String),
    cnt (processFrom st es).classCounter cls =
      cnt st.classCounter cls + ((es.map classTokensOf).flatten).count cls := by
  intro es
  induction es with
  | nil => intro st cls; simp [processFrom]
  | cons e es ih =>
    intro st cls
    show cnt (processFrom (stepEvent st e) es).classCounter cls = _
    rw [ih, stepEvent_classCounter, cnt_foldl_bump]
    simp [List.count_append]
    omega

lemma processFrom_inter : ∀ (es : List HEvent) (st : Inspector),
    (processFrom st es).interactiveElements =
      st.interactiveElements ++ es.filterMap interRecOf := by
  intro es
  induction es with
  | nil => intro st; simp [processFrom]
  | cons e es ih =>
    intro st
    show (processFrom (stepEvent st e) es).interactiveElements = _
    rw [ih, stepEvent_interactive]
    cases h : interRecOf e <;> simp [List.filterMap_cons, h]

lemma length_filterMap_interRec : ∀ (es : List HEvent),
    (es.filterMap interRecOf).length = es.countP (fun e => (interRecOf e).isSome) := by
  intro es
  induction es with
  | nil => rfl
  | cons e es ih =>
    cases h : interRecOf e <;>
      simp [List.filterMap_cons, h, List.countP_cons, ih]

/-- C6: `element_count` is the sum of the tag frequency counts and
equals the number of start-tag events; `unique_tags` is the number of
distinct tag names seen; class occurrences are counted once per carrying
element (nested elements included), as in the nested `card` example. -/
theorem claim_c6 :
    (∀ es, outElementCount (processEvents es) =
      sumCounts (processEvents es).tagCounter) ∧
    (∀ es, outElementCount (processEvents es) = (startTagsOf es).length) ∧
    (∀ es, outUniqueTags (processEvents es) = (startTagsOf es).toFinset.card) ∧
    (∀ es cls, cnt (processEvents es).classCounter cls =
      ((es.map classTokensOf).flatten).count cls) ∧
    (cnt (processEvents exNested).classCounter "card" = 2 ∧
     outInteractiveCount (processEvents exNested) = 1 ∧
     cnt (processEvents exNested).tagCounter "div" = 2) := by
  refine ⟨fun es => rfl, ?_, ?_, ?_, by decide, by decide, by decide⟩
  · intro es
    show sumCounts (processFrom initInspector es).tagCounter = _
    rw [processFrom_tagSum]
    simp [initInspector, sumCounts]
  · intro es
    show (processFrom initInspector es).tagCounter.length = _
    have h : (processFrom initInspector es).tagCounter.length =
        ((processFrom initInspector es).tagCounter.map Prod.fst).length := by
      simp
    rw [h, processFrom_tagKeys]
    show ((startTagsOf es).foldl insertNew []).length = _
    exact length_foldl_insertNew _
  · intro es cls
    show cnt (processFrom initInspector es).classCounter cls = _
    rw [processFrom_classCnt]
    simp [initInspector, cnt]

/-- C7: an opening tag is recorded as interactive exactly when its name
is in the fixed set or it has a non-empty `onclick` or `role="button"`;
every qualifying element is recorded during the pass (the reported count
is their total), and only the output sample is capped at the first 20. -/
theorem claim_c7 :
    (∀ es, (processEvents es).interactiveElements = es.filterMap interRecOf) ∧
    (∀ tag attrs, (interRecOf (HEvent.start tag attrs)).isSome ↔
      qualifiesInteractive tag attrs) ∧
    (∀ es, outInteractiveCount (processEvents es) =
      es.countP (fun e => (interRecOf e).isSome)) ∧
    (∀ es, outSampleInteractive (processEvents es) =
      (es.filterMap interRecOf).take 20) := by
  have hrec : ∀ es, (processEvents es).interactiveElements = es.filterMap interRecOf := by
    intro es
    show (processFrom initInspector es).interactiveElements = _
    rw [processFrom_inter]
    rfl
  refine ⟨hrec, ?_, ?_, ?_⟩
  · intro tag attrs
    simp only [interRecOf]
    split <;> simp [*]
  · intro es
    show (processEvents es).interactiveElements.length = _
    rw [hrec, length_filterMap_interRec]
  · intro es
    show (processEvents es).interactiveElements.take 20 = _
    rw [hrec]

/-!
## C8: token dedup/cap equivalence
-/

lemma dropSeen_nil : ∀ l, dropSeen [] l = l := by
  intro l
  induction l with
  | nil => rfl
  | cons t rest ih => simp [dropSeen, ih]

lemma filter_ne_dropSeen (t : String) (seen : List String) :
    ∀ l, (dropSeen seen l).filter (fun y => y != t) = dropSeen (t :: seen) l := by
  intro l
  induction l with
  | nil => rfl
  | cons y rest ih =>
    by_cases hy : y ∈ seen
    · simp [dropSeen, hy, ih, List.mem_cons]
    · by_cases hyt : y = t
      · subst hyt
        simp [dropSeen, hy, ih, List.mem_cons]
      · simp [dropSeen, hy, hyt, ih, List.mem_cons]

lemma uniqueLimitedAux_spec : ∀ (items seen res : List String) (limit : Nat),
    res.length < limit →
    uniqueLimitedAux limit items seen res =
      res ++ (dedupFirst (dropSeen seen (trimFilter items))).take (limit - res.length) := by
  intro items
  induction items with
  | nil =>
    intro seen res limit h
    simp [uniqueLimitedAux, trimFilter, dropSeen, dedupFirst]
  | cons item rest ih =>
    intro seen res limit hlt
    by_cases ht : trimStr item = ""
    · have h1 : uniqueLimitedAux limit (item :: rest) seen res =
          uniqueLimitedAux limit rest seen res := by
        simp [uniqueLimitedAux, ht]
      rw [h1, ih seen res limit hlt]
      simp [trimFilter, ht]
    · by_cases hseen : trimStr item ∈ seen
      · have h1 : uniqueLimitedAux limit (item :: rest) seen res =
            uniqueLimitedAux limit rest seen res := by
          simp [uniqueLimitedAux, ht, hseen]
        rw [h1, ih seen res limit hlt]
        simp [trimFilter, dropSeen, ht, hseen]
      · have h2 : dropSeen seen (trimFilter (item :: rest)) =
            trimStr item :: dropSeen seen (trimFilter rest) := by
          simp [trimFilter, dropSeen, ht, hseen]
        have h3 : dedupFirst (trimStr item :: dropSeen seen (trimFilter rest)) =
            trimStr item :: dedupFirst ((dropSeen seen (trimFilter rest)).filter
              (fun y => y != trimStr item)) := by
          rw [dedupFirst]
        by_cases hstop : limit ≤ res.length + 1
        · have h1 : uniqueLimitedAux limit (item :: rest) seen res =
              res ++ [trimStr item] := by
            simp [uniqueLimitedAux, ht, hseen, hstop]
          rw [h1, h2, h3]
          have hone : limit - res.length = 1 := by omega
          rw [hone]
          simp
        · have h1 : uniqueLimitedAux limit (item :: rest) seen res =
              uniqueLimitedAux limit rest (trimStr item :: seen)
                (res ++ [trimStr item]) := by
            simp [uniqueLimitedAux, ht, hseen, hstop]
          rw [h1, ih (trimStr item :: seen) (res ++ [trimStr item]) limit
            (by simp; omega)]
          rw [h2, h3, filter_ne_dropSeen]
          have hsucc : limit - res.length = (limit - (res.length + 1)) + 1 := by omega
          rw [hsucc]
          simp [List.take_succ_cons]

lemma uniqueLimited_eq_spec (items : List String) (limit : Nat) (h : 0 < limit) :
    uniqueLimited items limit = specUniqueLimited items limit := by
  unfold uniqueLimited specUniqueLimited
  rw [uniqueLimitedAux_spec items [] [] limit (by simpa using h)]
  rw [dropSeen_nil]
  simp

/-- C8: every token class of `extract_tokens` is the deduplication (by
exact trimmed text, first occurrence kept, empties dropped) of its
pattern scan, capped at 40; `font-size: 14px;` yields `"14px"`, and the
two hex spellings `#FFF` and `#ffffff` stay distinct tokens. -/
theorem claim_c8 :
    (∀ items, uniqueLimited items 40 = specUniqueLimited items 40) ∧
    (∀ css, (extractTokens css).colors = specUniqueLimited (colorsScan css) 40 ∧
      (extractTokens css).fontSizes =
        specUniqueLimited (propScan ["font-size"] css) 40 ∧
      (extractTokens css).spacings =
        specUniqueLimited
          (propScan ["margin", "padding", "gap", "row-gap", "column-gap"] css) 40 ∧
      (extractTokens css).radii =
        specUniqueLimited (propScan ["border-radius"] css) 40 ∧
      (extractTokens css).shadows =
        specUniqueLimited (propScan ["box-shadow"] css) 40) ∧
    (extractTokens "font-size: 14px;").fontSizes = ["14px"] ∧
    (extractTokens "color:#FFF\ncolor: #ffffff").colors = ["#FFF", "#ffffff"] ∧
    "#FFF" ≠ "#ffffff" := by
  have huniq : ∀ items, uniqueLimited items 40 = specUniqueLimited items 40 :=
    fun items => uniqueLimited_eq_spec items 40 (by norm_num)
  refine ⟨huniq, ?_, by decide, by decide, by decide⟩
  intro css
  exact ⟨huniq _, huniq _, huniq _, huniq _, huniq _⟩

/-!
## C9: the traversal bound
-/

lemma suffixTotal_moduleUpdate (c : SourceStats) (f : String) :
    suffixTotal (moduleUpdate c f) = suffixTotal c := by
  simp only [moduleUpdate]
  repeat' split
  all_goals rfl

lemma suffixTotal_suffixUpdate (c : SourceStats) (f : String) :
    suffixTotal (suffixUpdate c f) ≤ suffixTotal c + 1 := by
  simp only [suffixUpdate]
  repeat' split
  all_goals simp only [suffixTotal]
  all_goals omega

lemma moduleTotal_suffixUpdate (c : SourceStats) (f : String) :
    moduleCounterTotal (suffixUpdate c f) = moduleCounterTotal c := by
  simp only [suffixUpdate]
  repeat' split
  all_goals rfl

lemma moduleTotal_moduleUpdate (c : SourceStats) (f : String) :
    moduleCounterTotal (moduleUpdate c f) ≤ moduleCounterTotal c + 1 := by
  simp only [moduleUpdate]
  repeat' split
  all_goals simp only [moduleCounterTotal]
  all_goals omega

lemma suffixTotal_updateCounts (c : SourceStats) (f : String) :
    suffixTotal (updateCounts c f) ≤ suffixTotal c + 1 := by
  unfold updateCounts
  rw [suffixTotal_moduleUpdate]
  exact suffixTotal_suffixUpdate c f

lemma moduleTotal_updateCounts (c : SourceStats) (f : String) :
    moduleCounterTotal (updateCounts c f) ≤ moduleCounterTotal c + 1 := by
  unfold updateCounts
  calc moduleCounterTotal (moduleUpdate (suffixUpdate c f) f)
      ≤ moduleCounterTotal (suffixUpdate c f) + 1 := moduleTotal_moduleUpdate _ f
    _ = moduleCounterTotal c + 1 := by rw [moduleTotal_suffixUpdate]

lemma gatherAux_take (maxF : Nat) : ∀ (fs : List String) (scanned : Nat) (c : SourceStats),
    gatherAux maxF fs scanned c = gatherAux maxF (fs.take (maxF - scanned)) scanned c := by
  intro fs
  induction fs with
  | nil => intro scanned c; simp
  | cons f fs ih =>
    intro scanned c
    by_cases h : maxF ≤ scanned
    · have h0 : maxF - scanned = 0 := by omega
      simp [gatherAux, h, h0]
    · obtain ⟨k, hk⟩ : ∃ k, maxF - scanned = k + 1 := ⟨maxF - scanned - 1, by omega⟩
      rw [hk, List.take_succ_cons]
      show gatherAux maxF (f :: fs) scanned c = gatherAux maxF (f :: fs.take k) scanned c
      simp only [gatherAux, if_neg h]
      rw [ih (scanned + 1) (updateCounts c f)]
      have hk2 : maxF - (scanned + 1) = k := by omega
      rw [hk2]

lemma gatherAux_suffix_bound (maxF : Nat) :
    ∀ (fs : List String) (scanned : Nat) (c : SourceStats),
    suffixTotal (gatherAux maxF fs scanned c) ≤ suffixTotal c + (maxF - scanned) := by
  intro fs
  induction fs with
  | nil => intro scanned c; simp [gatherAux]
  | cons f fs ih =>
    intro scanned c
    by_cases h : maxF ≤ scanned
    · simp [gatherAux, h]
    · simp only [gatherAux, if_neg h]
      calc suffixTotal (gatherAux maxF fs (scanned + 1) (updateCounts c f))
          ≤ suffixTotal (updateCounts c f) + (maxF - (scanned + 1)) := ih _ _
        _ ≤ suffixTotal c + 1 + (maxF - (scanned + 1)) := by
            have := suffixTotal_updateCounts c f
            omega
        _ ≤ suffixTotal c + (maxF - scanned) := by omega

lemma gatherAux_module_bound (maxF : Nat) :
    ∀ (fs : List String) (scanned : Nat) (c : SourceStats),
    moduleCounterTotal (gatherAux maxF fs scanned c) ≤
      moduleCounterTotal c + (maxF - scanned) := by
  intro fs
  induction fs with
  | nil => intro scanned c; simp [gatherAux]
  | cons f fs ih =>
    intro scanned c
    by_cases h : maxF ≤ scanned
    · simp [gatherAux, h]
    · simp only [gatherAux, if_neg h]
      calc moduleCounterTotal (gatherAux maxF fs (scanned + 1) (updateCounts c f))
          ≤ moduleCounterTotal (updateCounts c f) + (maxF - (scanned + 1)) := ih _ _
        _ ≤ moduleCounterTotal c + 1 + (maxF - (scanned + 1)) := by
            have := moduleTotal_updateCounts c f
            omega
        _ ≤ moduleCounterTotal c + (maxF - scanned) := by omega

/-- C9: the statistics traversal scans at most 4000 files — the result
only depends on the first 4000 walked files, so once the bound is hit
the counts so far are returned as partial results (the function is total
by structural recursion, so it terminates on every input), and every
counter group stays bounded by 4000. -/
theorem claim_c9 (files : List String) :
    gatherSourceStats files = gatherSourceStats (files.take 4000) ∧
    suffixTotal (gatherSourceStats files) ≤ 4000 ∧
    moduleCounterTotal (gatherSourceStats files) ≤ 4000 := by
  refine ⟨?_, ?_, ?_⟩
  · show gatherAux 4000 files 0 zeroStats = gatherAux 4000 (files.take 4000) 0 zeroStats
    have h := gatherAux_take 4000 files 0 zeroStats
    simpa using h
  · have h := gatherAux_suffix_bound 4000 files 0 zeroStats
    simpa [suffixTotal, zeroStats] using h
  · have h := gatherAux_module_bound 4000 files 0 zeroStats
    simpa [moduleCounterTotal, zeroStats] using h
